import Mathlib

/-!
Shallow embedding of the `minigrep` command-line search tool
(`src/main.rs` and `src/lib.rs`) and proofs of its specification.

Rust strings are modelled as lists of characters (`Str`); process
arguments as `List Str`; the environment lookup
`env::var("CASE_INSENSITIVE").is_err()` as a boolean capability passed to
the parser; file reading as a function `Str → Except Str Str` passed to
`run`; printing as the list of lines emitted on standard output.
-/

/-- A Rust string slice, modelled as its list of characters. -/
abbrev Str := List Char

/-- Constant `HELP_TEXT: &str = "<query> <file> [-i]"` from `src/lib.rs`. -/
def HELP_TEXT : Str := "<query> <file> [-i]".toList

/-- Constant `UNSUFFICIENT_ARGUMENTS: &str = "Unsufficient arguments"`. -/
def UNSUFFICIENT_ARGUMENTS : Str := "Unsufficient arguments".toList

/-- Constant `UNSUPPORTED_OPTION: &str = "Unsupported option"`. -/
def UNSUPPORTED_OPTION : Str := "Unsupported option".toList

/-- Constant `UNEXPECTED_ARGUMENT: &str = "Unexpected argument"`. -/
def UNEXPECTED_ARGUMENT : Str := "Unexpected argument".toList

/-- Structure `pub struct Config` from `src/lib.rs`. -/
structure Config where
  query : Str
  filename : Str
  case_sensitive : Bool
deriving DecidableEq

/-- Outcome of `Config::new`: a Rust panic, `Ok(config)`, or `Err(msg)`. -/
inductive ParseResult where
  | panicked (msg : Str)
  | ok (config : Config)
  | err (msg : Str)
deriving DecidableEq

/-- Whether a `ParseResult` is a panic. -/
def ParseResult.isPanic : ParseResult → Bool
  | .panicked _ => true
  | _ => false

/-- The `Err(format!("{prog}: {err}\nUsage: {prog} {help}"))` value
(`arguments_err` in `Config::new`). -/
def argumentsErrMsg (programname : Str) : Str :=
  programname ++ ": ".toList ++ UNSUFFICIENT_ARGUMENTS ++
    "\nUsage: ".toList ++ programname ++ " ".toList ++ HELP_TEXT

/-- The `UnsupportedOption` error message for offending option `op`. -/
def unsupportedOptionMsg (programname : Str) (op : Char) : Str :=
  programname ++ ": ".toList ++ UNSUPPORTED_OPTION ++ " `".toList ++ [op] ++
    "`\nUsage: ".toList ++ programname ++ " ".toList ++ HELP_TEXT

/-- The `UnexpectedArgument` error message for offending token `arg`. -/
def unexpectedArgumentMsg (programname : Str) (arg : Str) : Str :=
  programname ++ ": ".toList ++ UNEXPECTED_ARGUMENT ++ " ".toList ++ arg ++
    "\nUsage: ".toList ++ programname ++ " ".toList ++ HELP_TEXT

/-- Result of the option-scanning loops of `Config::new`: either the loop
finished with an updated `case_sensitive` flag, or it returned early. -/
inductive LoopResult where
  | done (case_sensitive : Bool)
  | stop (r : ParseResult)

/-- The inner `for option in arg_chars` loop of `Config::new`: `'i'` sets
`case_sensitive = false`, any other character returns the
`UnsupportedOption` error. -/
def optionCharsLoop (programname : Str) (case_sensitive : Bool) :
    Str → LoopResult
  | [] => .done case_sensitive
  | c :: rest =>
    if c = 'i' then optionCharsLoop programname false rest
    else .stop (.err (unsupportedOptionMsg programname c))

/-- The outer `for arg in args` loop of `Config::new`: each remaining
argument has its first character unwrapped (a panic on an empty argument);
a leading `'-'` sends the remaining characters to the option loop, any
other first character returns the `UnexpectedArgument` error. -/
def argsLoop (programname : Str) (case_sensitive : Bool) :
    List Str → LoopResult
  | [] => .done case_sensitive
  | arg :: rest =>
    match arg with
    | [] => .stop (.panicked "called Option.unwrap on a None value".toList)
    | first_token :: arg_chars =>
      if first_token = '-' then
        match optionCharsLoop programname case_sensitive arg_chars with
        | .done cs => argsLoop programname cs rest
        | .stop r => .stop r
      else
        .stop (.err (unexpectedArgumentMsg programname (first_token :: arg_chars)))

/-- `Config::new` from `src/lib.rs`.  `envCaseInsensitiveAbsent` is the
value of `env::var("CASE_INSENSITIVE").is_err()`: `true` when the
environment variable is absent. -/
def Config.new (envCaseInsensitiveAbsent : Bool) (args : List Str) :
    ParseResult :=
  match args with
  | [] => .panicked "Unexpected error".toList
  | programname :: rest =>
    match rest with
    | [] => .err (argumentsErrMsg programname)
    | query :: rest2 =>
      match rest2 with
      | [] => .err (argumentsErrMsg programname)
      | filename :: options =>
        match argsLoop programname envCaseInsensitiveAbsent options with
        | .done cs => .ok { query := query, filename := filename, case_sensitive := cs }
        | .stop r => r

/-- Remove a trailing carriage return (`strip_suffix('\r')`). -/
def stripCR (l : Str) : Str :=
  if l.getLast? = some '\r' then l.dropLast else l

/-- Remove a trailing line feed, and if one was removed also a carriage
return before it: the per-line map used by Rust `str::lines`. -/
def stripNL (l : Str) : Str :=
  if l.getLast? = some '\n' then stripCR l.dropLast else l

/-- `str::split_inclusive('\n')`: split after every line feed, keeping the
terminators; an empty input yields no segments. -/
def splitInclusive : Str → List Str
  | [] => []
  | c :: cs =>
    if c = '\n' then [c] :: splitInclusive cs
    else
      match splitInclusive cs with
      | [] => [[c]]
      | r :: rs => (c :: r) :: rs

/-- Rust `str::lines`: split inclusively at line feeds, then strip each
segment's terminator (`\n`, or `\r\n`). -/
def linesOf (contents : Str) : List Str :=
  (splitInclusive contents).map stripNL

/-- Rust `str::contains` for string needles: some suffix of the haystack
starts with the needle. -/
def strContains (haystack needle : Str) : Bool :=
  (List.range (haystack.length + 1)).any fun i =>
    needle.isPrefixOf (haystack.drop i)

/-- `pub fn search` from `src/lib.rs`. -/
def search (query contents : Str) : List Str :=
  (linesOf contents).filter fun line => strContains line query

/-- Rust `char::to_lowercase`, on the modelled fragment of the Unicode
table: ASCII `A`–`Z` and the Greek capitals `Α`–`Ω` (code points 0x391 to
0x3A9, skipping the unassigned 0x3A2) move down by 32 code points; every
other character is fixed.  The single multi-character mapping of Unicode
(dotted capital I) lies outside the fragment. -/
def charToLower (c : Char) : Char :=
  if 'A' ≤ c ∧ c ≤ 'Z' then Char.ofNat (c.toNat + 32)
  else if 0x391 ≤ c.toNat ∧ c.toNat ≤ 0x3A9 ∧ c.toNat ≠ 0x3A2 then
    Char.ofNat (c.toNat + 32)
  else c

/-- Unicode `Cased` class, on the modelled fragment: ASCII letters and
Greek letters (capitals 0x391–0x3A9 minus the hole, minuscules
0x3B1–0x3C9 including final sigma). -/
def cased (c : Char) : Bool :=
  decide (('a' ≤ c ∧ c ≤ 'z') ∨ ('A' ≤ c ∧ c ≤ 'Z') ∨
    (0x391 ≤ c.toNat ∧ c.toNat ≤ 0x3A9 ∧ c.toNat ≠ 0x3A2) ∨
    (0x3B1 ≤ c.toNat ∧ c.toNat ≤ 0x3C9))

/-- Unicode `Case_Ignorable` class, on the modelled fragment: apostrophe,
full stop, colon and middle dot. -/
def caseIgnorable (c : Char) : Bool :=
  decide (c = '\'' ∨ c = '.' ∨ c = ':' ∨ c = '·')

/-- Rust's `case_ignorable_then_cased` helper from `str::to_lowercase`:
after skipping case-ignorable characters, the next character is cased. -/
def caseIgnorableThenCased (l : Str) : Bool :=
  match l.dropWhile caseIgnorable with
  | [] => false
  | c :: _ => cased c

/-- Lowercase one character in context, as `str::to_lowercase` does: a
capital sigma becomes the final `ς` exactly when the preceding characters
(in reverse) pass `case_ignorable_then_cased` and the following ones do
not; every other character lowercases context-freely. -/
def lowerChar (revBefore rest : Str) (c : Char) : Char :=
  if c = 'Σ' then
    (if caseIgnorableThenCased revBefore && !(caseIgnorableThenCased rest)
     then 'ς' else 'σ')
  else charToLower c

/-- Character-by-character pass of `str::to_lowercase`, carrying the
reversed prefix already consumed for the sigma context check. -/
def toLowercaseGo (revBefore : Str) : Str → Str
  | [] => []
  | c :: rest => lowerChar revBefore rest c :: toLowercaseGo (c :: revBefore) rest

/-- Rust `str::to_lowercase`, on the modelled fragment, including the
context-sensitive final-sigma rule. -/
def toLowercase (s : Str) : Str := toLowercaseGo [] s

/-- `pub fn search_case_insensitive` from `src/lib.rs`: lowercase the
query once, then push every line whose lowercasing contains it. -/
def search_case_insensitive (query contents : Str) : List Str :=
  let q := toLowercase query
  (linesOf contents).foldl
    (fun results line =>
      if strContains (toLowercase line) q then results ++ [line] else results)
    []

/-- `pub fn run` from `src/lib.rs`.  `read_to_string` is the capability
standing for `fs::read_to_string`; the `Ok` payload is the list of lines
printed to standard output, the `Except.error` payload the propagated I/O
error. -/
def run (read_to_string : Str → Except Str Str) (config : Config) :
    Except Str (List Str) :=
  match read_to_string config.filename with
  | .error e => .error e
  | .ok contents =>
    .ok (if config.case_sensitive then search config.query contents
         else search_case_insensitive config.query contents)

/-- `fn main` from `src/main.rs`: the lines it prints to standard output.
With fewer than 3 arguments it prints a usage line; otherwise it prints
two banner lines naming the query and the filename.  It never reads a
file and never invokes `run` or `search`. -/
def mainStdout (args : List Str) : List Str :=
  if args.length < 3 then
    ["Usage: ".toList ++ args.headD [] ++ " <query> <filename>".toList]
  else
    ["Searching for ".toList ++ args.getD 1 [],
     "In file ".toList ++ args.getD 2 []]

/-! ## Shared lemmas about substring containment -/

/-- `strContains hay q` decides substring containment: it is `true` exactly
when `q` is a contiguous infix of `hay`. -/
lemma strContains_iff (hay q : Str) : strContains hay q = true ↔ q <:+: hay := by
  unfold strContains
  rw [List.any_eq_true]
  constructor
  · rintro ⟨i, _, hpre⟩
    rw [List.isPrefixOf_iff_prefix] at hpre
    exact hpre.isInfix.trans (List.drop_suffix i hay).isInfix
  · rintro ⟨s, t, rfl⟩
    refine ⟨s.length, ?_, ?_⟩
    · rw [List.mem_range]
      have : s.length ≤ (s ++ q ++ t).length := by
        simp [List.length_append]
      omega
    · rw [List.isPrefixOf_iff_prefix, List.append_assoc, List.drop_left]
      exact List.prefix_append q t

/-- Containment with the empty needle always holds. -/
lemma strContains_nil (hay : Str) : strContains hay [] = true := by
  rw [strContains_iff]
  exact List.nil_infix

/-- Unfolding equation for `toLowercaseGo` on a cons cell. -/
lemma toLowercaseGo_cons (rb : Str) (c : Char) (l : Str) :
    toLowercaseGo rb (c :: l) = lowerChar rb l c :: toLowercaseGo (c :: rb) l :=
  rfl

/-- On a sigma-free block, the lowercasing pass is the context-free
character map, and the pass distributes over the block. -/
lemma toLowercaseGo_append_no_sigma : ∀ (q : Str), 'Σ' ∉ q → ∀ (t rb : Str),
    toLowercaseGo rb (q ++ t)
      = q.map charToLower ++ toLowercaseGo (q.reverse ++ rb) t := by
  intro q
  induction q with
  | nil => intro _ t rb; simp
  | cons c q' ih =>
    intro hq t rb
    have hc : c ≠ 'Σ' := fun h => hq (h ▸ List.mem_cons_self c q')
    have hq' : 'Σ' ∉ q' := fun hm => hq (List.mem_cons_of_mem c hm)
    rw [List.cons_append, toLowercaseGo_cons, lowerChar, if_neg hc,
      ih hq' t (c :: rb)]
    simp [List.append_assoc]

/-- Lowercasing a sigma-free string is the context-free character map. -/
lemma toLowercase_no_sigma {q : Str} (hq : 'Σ' ∉ q) :
    toLowercase q = q.map charToLower := by
  have h := toLowercaseGo_append_no_sigma q hq [] []
  simpa [toLowercase, toLowercaseGo] using h

/-- A sigma-free infix survives lowercasing: wherever the block sits, the
pass sends it to its context-free image. -/
lemma toLowercaseGo_infix : ∀ (s rb q t : Str), 'Σ' ∉ q →
    (q.map charToLower) <:+: toLowercaseGo rb (s ++ q ++ t) := by
  intro s
  induction s with
  | nil =>
    intro rb q t hq
    rw [List.nil_append, toLowercaseGo_append_no_sigma q hq t rb]
    exact ⟨[], toLowercaseGo (q.reverse ++ rb) t, by simp⟩
  | cons c s' ih =>
    intro rb q t hq
    rw [List.cons_append, List.cons_append, toLowercaseGo_cons]
    rcases ih (c :: rb) q t hq with ⟨u, v, huv⟩
    exact ⟨lowerChar rb (s' ++ q ++ t) c :: u, v, by rw [← huv]; simp⟩

/-- Containment of a sigma-free needle is preserved by lowercasing both
haystack and needle. -/
lemma strContains_toLowercase {line q : Str} (hq : 'Σ' ∉ q)
    (h : strContains line q = true) :
    strContains (toLowercase line) (toLowercase q) = true := by
  rw [strContains_iff] at h ⊢
  rw [toLowercase_no_sigma hq]
  rcases h with ⟨s, t, rfl⟩
  exact toLowercaseGo_infix s [] q t hq

/-- Folding the push-if loop of `search_case_insensitive` is a filter. -/
lemma foldl_push_filter (p : Str → Bool) (L : List Str) :
    ∀ acc : List Str,
      L.foldl (fun results line =>
        if p line then results ++ [line] else results) acc
        = acc ++ L.filter p := by
  induction L with
  | nil => intro acc; simp
  | cons hd tl ih =>
    intro acc
    simp only [List.foldl_cons]
    by_cases h : p hd
    · rw [if_pos h, ih, List.filter_cons_of_pos h]
      simp
    · rw [if_neg h, ih, List.filter_cons_of_neg h]

/-- The imperative loop of `search_case_insensitive` computes a filter over
the lines of the contents. -/
lemma search_case_insensitive_eq_filter (query contents : Str) :
    search_case_insensitive query contents
      = (linesOf contents).filter
          fun line => strContains (toLowercase line) (toLowercase query) := by
  unfold search_case_insensitive
  rw [foldl_push_filter]
  simp

/-! ## Shared lemmas about line splitting -/

/-- Splitting a non-empty input yields at least one segment. -/
lemma splitInclusive_ne_nil {c : Str} (h : c ≠ []) : splitInclusive c ≠ [] := by
  cases c with
  | nil => exact absurd rfl h
  | cons a cs =>
    by_cases ha : a = '\n'
    · simp [splitInclusive, ha]
    · simp only [splitInclusive, if_neg ha]
      cases splitInclusive cs <;> simp

/-- Unfolding equation for `splitInclusive` on a cons cell. -/
lemma splitInclusive_cons_eq (a : Char) (cs : Str) :
    splitInclusive (a :: cs)
      = if a = '\n' then [a] :: splitInclusive cs
        else
          match splitInclusive cs with
          | [] => [[a]]
          | r :: rs => (a :: r) :: rs := rfl

/-- Membership in a list's last-element option implies list membership. -/
lemma getLast?_eq_some_mem {l : Str} {x : Char} (h : l.getLast? = some x) :
    x ∈ l := by
  have hx : x ∈ l.getLast? := by rw [h]; rfl
  rcases List.mem_getLast?_eq_getLast hx with ⟨hne, heq⟩
  rw [heq]
  exact List.getLast_mem hne

/-- Every segment produced by `splitInclusive` is either a line-feed
terminated block whose body has no line feed, or a non-empty final block
with no line feed at all. -/
lemma splitInclusive_segOK : ∀ (c : Str), ∀ s ∈ splitInclusive c,
    (∃ b, '\n' ∉ b ∧ s = b ++ ['\n']) ∨ ('\n' ∉ s ∧ s ≠ []) := by
  intro c
  induction c with
  | nil => intro s hs; simp [splitInclusive] at hs
  | cons a cs ih =>
    intro s hs
    rw [splitInclusive_cons_eq] at hs
    by_cases ha : a = '\n'
    · rw [if_pos ha] at hs
      subst ha
      rcases List.mem_cons.mp hs with rfl | hs
      · exact .inl ⟨[], by simp, rfl⟩
      · exact ih s hs
    · rw [if_neg ha] at hs
      cases hsi : splitInclusive cs with
      | nil =>
        rw [hsi] at hs
        have hsa := List.mem_singleton.mp hs
        subst hsa
        refine .inr ⟨?_, by simp⟩
        intro hmem
        exact ha (List.mem_singleton.mp hmem).symm
      | cons r rs =>
        rw [hsi] at hs
        rcases List.mem_cons.mp hs with rfl | hs
        · have hr := ih r (by rw [hsi]; exact List.mem_cons_self r rs)
          rcases hr with ⟨b, hb, hrb⟩ | ⟨hr1, hr2⟩
          · subst hrb
            refine .inl ⟨a :: b, ?_, by simp⟩
            intro hmem
            rcases List.mem_cons.mp hmem with h | h
            · exact ha h.symm
            · exact hb h
          · refine .inr ⟨?_, by simp⟩
            intro hmem
            rcases List.mem_cons.mp hmem with h | h
            · exact ha h.symm
            · exact hr1 h
        · exact ih s (by rw [hsi]; exact List.mem_cons_of_mem r hs)

/-- Stripping the terminator of any `splitInclusive` segment leaves no
line feed in the line. -/
lemma stripNL_no_newline {c s : Str} (hs : s ∈ splitInclusive c) :
    '\n' ∉ stripNL s := by
  rcases splitInclusive_segOK c s hs with ⟨b, hb, rfl⟩ | ⟨h1, _⟩
  · rw [stripNL, if_pos (List.getLast?_concat b), List.dropLast_concat]
    unfold stripCR
    split
    · intro hmem
      exact hb ((List.dropLast_sublist b).mem hmem)
    · exact hb
  · have hlast : s.getLast? ≠ some '\n' := by
      intro heq
      exact h1 (getLast?_eq_some_mem heq)
    rw [stripNL, if_neg hlast]
    exact h1

/-- No line produced by `linesOf` contains a line feed. -/
lemma linesOf_no_newline {c l : Str} (hl : l ∈ linesOf c) : '\n' ∉ l := by
  simp only [linesOf, List.mem_map] at hl
  obtain ⟨s, hs, rfl⟩ := hl
  exact stripNL_no_newline hs

/-- A non-empty input yields at least one line. -/
lemma linesOf_ne_nil {c : Str} (h : c ≠ []) : linesOf c ≠ [] := by
  simp only [linesOf, ne_eq, List.map_eq_nil_iff]
  exact splitInclusive_ne_nil h

/-- A non-empty input without line feeds is a single segment. -/
lemma splitInclusive_no_newline {c : Str} (h : '\n' ∉ c) (hne : c ≠ []) :
    splitInclusive c = [c] := by
  induction c with
  | nil => exact absurd rfl hne
  | cons a cs ih =>
    have ha : a ≠ '\n' := fun h' => h (h' ▸ List.mem_cons_self a cs)
    rw [splitInclusive_cons_eq, if_neg ha]
    by_cases hcs : cs = []
    · subst hcs
      rfl
    · rw [ih (fun hm => h (List.mem_cons_of_mem a hm)) hcs]

/-- Stripping is the identity on a list not ending in a line feed. -/
lemma stripNL_of_getLast?_ne {l : Str} (h : l.getLast? ≠ some '\n') :
    stripNL l = l := by
  rw [stripNL, if_neg h]

/-- A non-empty input without line feeds yields itself as its only line. -/
lemma linesOf_no_newline_eq {c : Str} (h : '\n' ∉ c) (hne : c ≠ []) :
    linesOf c = [c] := by
  rw [linesOf, splitInclusive_no_newline h hne]
  simp only [List.map_cons, List.map_nil]
  rw [stripNL_of_getLast?_ne (fun heq => h (getLast?_eq_some_mem heq))]

/-- Splitting distributes over the first line-feed boundary. -/
lemma splitInclusive_append_newline {p : Str} (hp : '\n' ∉ p) (r : Str) :
    splitInclusive (p ++ '\n' :: r) = (p ++ ['\n']) :: splitInclusive r := by
  induction p with
  | nil => simp [splitInclusive_cons_eq]
  | cons a p' ih =>
    have ha : a ≠ '\n' := fun h' => hp (h' ▸ List.mem_cons_self a p')
    have hp' : '\n' ∉ p' := fun hm => hp (List.mem_cons_of_mem a hm)
    rw [List.cons_append, splitInclusive_cons_eq, if_neg ha, ih hp']
    rfl

/-- Every list either has no line feed or splits at its first one. -/
lemma exists_first_newline (c : Str) :
    '\n' ∉ c ∨ ∃ p r, '\n' ∉ p ∧ c = p ++ '\n' :: r := by
  induction c with
  | nil => exact .inl (by simp)
  | cons a cs ih =>
    by_cases ha : a = '\n'
    · exact .inr ⟨[], cs, by simp, by simp [ha]⟩
    · rcases ih with h | ⟨p, r, hp, rfl⟩
      · refine .inl ?_
        intro hm
        rcases List.mem_cons.mp hm with h' | h'
        · exact ha h'.symm
        · exact h h'
      · refine .inr ⟨a :: p, r, ?_, by simp⟩
        intro hm
        rcases List.mem_cons.mp hm with h' | h'
        · exact ha h'.symm
        · exact hp h'

/-- Appending a line feed to an input that is non-empty and ends neither
in a line feed nor in a carriage return yields the same lines
(auxiliary form, with an explicit length bound for the induction). -/
lemma linesOf_append_newline_aux : ∀ (n : ℕ) (c : Str), c.length ≤ n →
    c ≠ [] → c.getLast? ≠ some '\n' → c.getLast? ≠ some '\r' →
    linesOf (c ++ ['\n']) = linesOf c := by
  intro n
  induction n with
  | zero =>
    intro c hc hne _ _
    exact absurd (List.length_eq_zero.mp (Nat.le_zero.mp hc)) hne
  | succ n ih =>
    intro c hlen hne hlast1 hlast2
    rcases exists_first_newline c with hnl | ⟨p, r, hp, rfl⟩
    · have h1 : splitInclusive (c ++ ['\n']) = [c ++ ['\n']] := by
        have h := splitInclusive_append_newline hnl ([] : Str)
        simpa using h
      rw [linesOf, h1, linesOf_no_newline_eq hnl hne]
      simp only [List.map_cons, List.map_nil]
      rw [stripNL, if_pos (List.getLast?_concat c), List.dropLast_concat,
        stripCR, if_neg hlast2]
    · have hr : r ≠ [] := by
        rintro rfl
        apply hlast1
        have h0 : p ++ '\n' :: ([] : Str) = p ++ ['\n'] := rfl
        rw [h0]
        exact List.getLast?_concat p
      have hsplit : p ++ '\n' :: r = (p ++ ['\n']) ++ r := by simp
      have hglast : (p ++ '\n' :: r).getLast? = r.getLast? := by
        rw [hsplit]
        exact List.getLast?_append_of_ne_nil (p ++ ['\n']) hr
      have hrlast1 : r.getLast? ≠ some '\n' := by
        rw [← hglast]; exact hlast1
      have hrlast2 : r.getLast? ≠ some '\r' := by
        rw [← hglast]; exact hlast2
      have hrlen : r.length ≤ n := by
        have := hlen
        simp only [List.length_append, List.length_cons] at this
        omega
      have hrec := ih r hrlen hr hrlast1 hrlast2
      have hassoc : (p ++ '\n' :: r) ++ ['\n'] = p ++ '\n' :: (r ++ ['\n']) := by
        simp
      rw [hassoc]
      simp only [linesOf, splitInclusive_append_newline hp, List.map_cons]
      have hrec' : (splitInclusive (r ++ ['\n'])).map stripNL
          = (splitInclusive r).map stripNL := by
        simpa [linesOf] using hrec
      rw [hrec']

/-- Appending a line feed to an input that is non-empty and ends neither
in a line feed nor in a carriage return yields the same lines. -/
lemma linesOf_append_newline {c : Str} (hne : c ≠ [])
    (h1 : c.getLast? ≠ some '\n') (h2 : c.getLast? ≠ some '\r') :
    linesOf (c ++ ['\n']) = linesOf c :=
  linesOf_append_newline_aux c.length c le_rfl hne h1 h2

/-! ## Shared lemmas about the argument parser -/

/-- The inner option loop either finishes or stops with an
`UnsupportedOption` error; it never panics or produces a config. -/
lemma optionCharsLoop_cases (prog : Str) (l : Str) : ∀ cs : Bool,
    (∃ b, optionCharsLoop prog cs l = .done b) ∨
    (∃ m, optionCharsLoop prog cs l = .stop (.err m)) := by
  induction l with
  | nil => intro cs; exact .inl ⟨cs, rfl⟩
  | cons c rest ih =>
    intro cs
    by_cases hc : c = 'i'
    · simpa [optionCharsLoop, hc] using ih false
    · exact .inr ⟨unsupportedOptionMsg prog c, by simp [optionCharsLoop, hc]⟩

/-- When the inner option loop finishes, every scanned character was `'i'`
and the resulting flag is the incoming one only for an empty scan. -/
lemma optionCharsLoop_done : ∀ (l : Str) (prog : Str) (cs b : Bool),
    optionCharsLoop prog cs l = .done b →
    (∀ c ∈ l, c = 'i') ∧ b = (cs && l.isEmpty) := by
  intro l
  induction l with
  | nil =>
    intro prog cs b h
    simp only [optionCharsLoop] at h
    cases h
    exact ⟨by simp, by simp⟩
  | cons c rest ih =>
    intro prog cs b h
    by_cases hc : c = 'i'
    · simp only [optionCharsLoop, if_pos hc] at h
      obtain ⟨hall, hb⟩ := ih prog false b h
      refine ⟨?_, ?_⟩
      · intro x hx
        rcases List.mem_cons.mp hx with rfl | hx
        · exact hc
        · exact hall x hx
      · simp only [Bool.false_and] at hb
        simp [hb]
    · simp only [optionCharsLoop, if_neg hc] at h
      exact (LoopResult.noConfusion h)

/-- When the inner option loop stops early, it does so with an error. -/
lemma optionCharsLoop_stop : ∀ (l : Str) (prog : Str) (cs : Bool)
    (r : ParseResult), optionCharsLoop prog cs l = .stop r →
    ∃ m, r = .err m := by
  intro l
  induction l with
  | nil => intro prog cs r h; exact (LoopResult.noConfusion h)
  | cons c rest ih =>
    intro prog cs r h
    by_cases hc : c = 'i'
    · simp only [optionCharsLoop, if_pos hc] at h
      exact ih prog false r h
    · simp only [optionCharsLoop, if_neg hc] at h
      cases h
      exact ⟨unsupportedOptionMsg prog c, rfl⟩

/-- As long as no trailing argument is the empty string, the outer
argument loop either finishes or stops with an error; it never panics. -/
lemma argsLoop_no_panic : ∀ (opts : List Str) (prog : Str) (cs : Bool),
    (∀ a ∈ opts, a ≠ []) →
    (∃ b, argsLoop prog cs opts = .done b) ∨
    (∃ m, argsLoop prog cs opts = .stop (.err m)) := by
  intro opts
  induction opts with
  | nil => intro prog cs _; exact .inl ⟨cs, rfl⟩
  | cons arg rest ih =>
    intro prog cs h
    cases arg with
    | nil => exact absurd rfl (h [] (List.mem_cons_self [] rest))
    | cons ft ac =>
      simp only [argsLoop]
      by_cases hft : ft = '-'
      · rw [if_pos hft]
        rcases optionCharsLoop_cases prog ac cs with ⟨b, hb⟩ | ⟨m, hm⟩
        · rw [hb]
          exact ih prog b (fun a ha => h a (List.mem_cons_of_mem _ ha))
        · rw [hm]
          exact .inr ⟨m, rfl⟩
      · rw [if_neg hft]
        exact .inr ⟨unexpectedArgumentMsg prog (ft :: ac), rfl⟩

/-- When the outer argument loop stops early, the propagated result is
never a successfully built configuration. -/
lemma argsLoop_stop_not_ok : ∀ (opts : List Str) (prog : Str) (cs : Bool)
    (r : ParseResult), argsLoop prog cs opts = .stop r →
    ∀ c : Config, r ≠ .ok c := by
  intro opts
  induction opts with
  | nil => intro prog cs r h; exact (LoopResult.noConfusion h)
  | cons arg rest ih =>
    intro prog cs r h c
    cases arg with
    | nil =>
      simp only [argsLoop] at h
      cases h
      simp
    | cons ft ac =>
      simp only [argsLoop] at h
      by_cases hft : ft = '-'
      · rw [if_pos hft] at h
        cases hocl : optionCharsLoop prog cs ac with
        | done b =>
          rw [hocl] at h
          exact ih prog b r h c
        | stop r2 =>
          rw [hocl] at h
          cases h
          obtain ⟨m, rfl⟩ := optionCharsLoop_stop ac prog cs r hocl
          simp
      · rw [if_neg hft] at h
        cases h
        simp

/-- When the outer argument loop finishes, the final flag is `true` exactly
when the incoming flag was `true` and no trailing argument mentioned the
`i` option. -/
lemma argsLoop_done : ∀ (opts : List Str) (prog : Str) (cs b : Bool),
    argsLoop prog cs opts = .done b →
    (b = true ↔ cs = true ∧ ∀ a ∈ opts, 'i' ∉ a) := by
  intro opts
  induction opts with
  | nil =>
    intro prog cs b h
    simp only [argsLoop] at h
    cases h
    simp
  | cons arg rest ih =>
    intro prog cs b h
    cases arg with
    | nil =>
      simp only [argsLoop] at h
      exact (LoopResult.noConfusion h)
    | cons ft ac =>
      simp only [argsLoop] at h
      by_cases hft : ft = '-'
      · rw [if_pos hft] at h
        subst hft
        cases hocl : optionCharsLoop prog cs ac with
        | done cs2 =>
          rw [hocl] at h
          obtain ⟨hall, hcs2⟩ := optionCharsLoop_done ac prog cs cs2 hocl
          rw [ih prog cs2 b h]
          constructor
          · rintro ⟨h1, h2⟩
            rw [h1] at hcs2
            have hcs : cs = true := by
              cases hc : cs
              · rw [hc] at hcs2; simp at hcs2
              · rfl
            have hac : ac.isEmpty = true := by
              cases hac : ac.isEmpty
              · rw [hac, Bool.and_false] at hcs2; simp at hcs2
              · rfl
            have hacnil : ac = [] := by
              cases ac
              · rfl
              · simp [List.isEmpty] at hac
            refine ⟨hcs, ?_⟩
            intro a ha
            rcases List.mem_cons.mp ha with rfl | ha
            · subst hacnil
              intro hm
              rcases List.mem_singleton.mp hm with hm'
              exact absurd hm'.symm (by decide)
            · exact h2 a ha
          · rintro ⟨h1, h2⟩
            have hnoi : 'i' ∉ ('-' :: ac) :=
              h2 ('-' :: ac) (List.mem_cons_self _ _)
            have hacnil : ac = [] := by
              cases hac : ac with
              | nil => rfl
              | cons x xs =>
                exfalso
                apply hnoi
                have hx : x = 'i' := hall x (by rw [hac]; exact List.mem_cons_self x xs)
                rw [hac, hx]
                exact List.mem_cons_of_mem _ (List.mem_cons_self 'i' xs)
            subst hacnil
            refine ⟨?_, ?_⟩
            · rw [hcs2, h1]
              rfl
            · intro a ha
              exact h2 a (List.mem_cons_of_mem _ ha)
        | stop r =>
          rw [hocl] at h
          exact (LoopResult.noConfusion h)
      · rw [if_neg hft] at h
        exact (LoopResult.noConfusion h)

/-- A bare-dash trailing argument is transparent to the outer loop: the
loop behaves exactly as on the same list with the bare dash removed,
whatever surrounds it. -/
lemma argsLoop_skip_dash : ∀ (pre post : List Str) (prog : Str) (cs : Bool),
    argsLoop prog cs (pre ++ (['-'] : Str) :: post)
      = argsLoop prog cs (pre ++ post) := by
  intro pre
  induction pre with
  | nil => intro post prog cs; rfl
  | cons a pre' ih =>
    intro post prog cs
    cases a with
    | nil => rfl
    | cons ft ac =>
      simp only [List.cons_append, argsLoop]
      by_cases hft : ft = '-'
      · rw [if_pos hft, if_pos hft]
        cases optionCharsLoop prog cs ac with
        | done b => exact ih post prog b
        | stop r => rfl
      · rw [if_neg hft, if_neg hft]

/-- Modelled from the spec: the literal error-message format
`<program>: <error text>\nUsage: <program> <query> <file> [-i]` for the
insufficient-arguments case, written as the spec writes it. -/
def specInsufficientMsg (prog : Str) : Str :=
  prog ++ ": Unsufficient arguments\nUsage: ".toList ++ prog ++
    " <query> <file> [-i]".toList

/-- The parser's insufficient-arguments message matches the spec's
literal format. -/
lemma argumentsErrMsg_eq_spec (prog : Str) :
    argumentsErrMsg prog = specInsufficientMsg prog := by
  have h1 : (": ".toList : Str) ++ UNSUFFICIENT_ARGUMENTS ++ "\nUsage: ".toList
      = ": Unsufficient arguments\nUsage: ".toList := by decide
  have h2 : (" ".toList : Str) ++ HELP_TEXT = " <query> <file> [-i]".toList := by
    decide
  calc argumentsErrMsg prog
      = prog ++ ((": ".toList ++ UNSUFFICIENT_ARGUMENTS ++ "\nUsage: ".toList)
          ++ (prog ++ ((" ".toList ++ HELP_TEXT) ++ []))) := by
        simp [argumentsErrMsg, List.append_assoc]
    _ = specInsufficientMsg prog := by
        rw [h1, h2]
        simp [specInsufficientMsg, List.append_assoc]

/-! ## Claim theorems -/

/-- C2: for every query string and every contents string, `search` (the
case-sensitive mode) returns exactly the subsequence of the lines of the
contents, in original order, consisting of those lines that contain the
query as a contiguous byte-exact substring (an infix), with no
deduplication and no limit on result count. -/
theorem search_exact_matching_lines (query contents : Str) :
    search query contents
      = (linesOf contents).filter fun line => decide (query <:+: line) := by
  unfold search
  apply List.filter_congr
  intro l _
  rw [Bool.eq_iff_iff, strContains_iff, decide_eq_true_eq]

/-- C3 counterexample: the context-sensitive final-sigma rule of
`str::to_lowercase` refutes the claim as stated.  With query `ΑΣ` and
contents `ΑΣΔ`, the line matches case-sensitively, but the query
lowercases to `ας` (word-final sigma) while the line lowercases to `ασδ`
(sigma followed by a cased letter), so case-insensitive search returns
strictly fewer lines. -/
theorem search_case_insensitive_sigma_counterexample :
    (search "ΑΣ".toList "ΑΣΔ".toList).length = 1 ∧
    (search_case_insensitive "ΑΣ".toList "ΑΣΔ".toList).length = 0 ∧
    ¬ ((search "ΑΣ".toList "ΑΣΔ".toList).length
        ≤ (search_case_insensitive "ΑΣ".toList "ΑΣΔ".toList).length) ∧
    "ΑΣΔ".toList ∈ search "ΑΣ".toList "ΑΣΔ".toList ∧
    "ΑΣΔ".toList ∉ search_case_insensitive "ΑΣ".toList "ΑΣΔ".toList := by
  refine ⟨by decide, by decide, by decide, by decide, by decide⟩

/-- C3 amended: for every query string not containing the capital sigma
`Σ` — the one character whose lowercasing is context-sensitive — and
every contents string, the case-sensitive result is a sublist of the
case-insensitive result — every line matched case-sensitively is also
matched case-insensitively — so the case-insensitive result has at least
as many lines. -/
theorem search_sublist_case_insensitive_no_sigma (query contents : Str)
    (hq : 'Σ' ∉ query) :
    (search query contents).Sublist (search_case_insensitive query contents) ∧
    (search query contents).length
      ≤ (search_case_insensitive query contents).length := by
  have hsub : (search query contents).Sublist
      (search_case_insensitive query contents) := by
    rw [search_case_insensitive_eq_filter]
    unfold search
    apply List.monotone_filter_right
    intro l h
    exact strContains_toLowercase hq h
  exact ⟨hsub, hsub.length_le⟩

/-- C3 amended witness: the mixed-case sigma-free query `rUsT` matches
nothing case-sensitively and both lines case-insensitively. -/
theorem search_sublist_case_insensitive_no_sigma_witness :
    ('Σ' ∉ ("rUsT".toList : Str)) ∧
    ((search "rUsT".toList "Rust:\nTrust me.".toList).Sublist
        (search_case_insensitive "rUsT".toList "Rust:\nTrust me.".toList) ∧
      (search "rUsT".toList "Rust:\nTrust me.".toList).length
        ≤ (search_case_insensitive "rUsT".toList
            "Rust:\nTrust me.".toList).length) :=
  ⟨by decide, search_sublist_case_insensitive_no_sigma "rUsT".toList
      "Rust:\nTrust me.".toList (by decide)⟩

/-- C7: case-insensitive search includes a line exactly when the
lowercasing of that line contains the lowercasing of the query, and every
returned line is an original, non-lowercased line of the contents. -/
theorem search_case_insensitive_lowercase_spec (query contents : Str) :
    search_case_insensitive query contents
      = (linesOf contents).filter
          (fun line => decide (toLowercase query <:+: toLowercase line)) ∧
    ∀ line, line ∈ search_case_insensitive query contents ↔
      line ∈ linesOf contents ∧ toLowercase query <:+: toLowercase line := by
  have h := search_case_insensitive_eq_filter query contents
  constructor
  · rw [h]
    apply List.filter_congr
    intro l _
    rw [Bool.eq_iff_iff, strContains_iff, decide_eq_true_eq]
  · intro line
    rw [h, List.mem_filter]
    constructor
    · rintro ⟨h1, h2⟩
      exact ⟨h1, (strContains_iff _ _).mp h2⟩
    · rintro ⟨h1, h2⟩
      exact ⟨h1, (strContains_iff _ _).mpr h2⟩

/-- C8: searching with the empty query in either mode returns every line
of the contents; and the lines follow the universal line-break convention:
no line contains its terminator, a non-empty input yields at least one
line even without a trailing newline (a newline-free input is its own
single line), and adding a trailing newline to an input not already
ending in a line break produces no extra empty line. -/
theorem search_empty_query (contents : Str) :
    search [] contents = linesOf contents ∧
    search_case_insensitive [] contents = linesOf contents ∧
    (∀ line ∈ linesOf contents, '\n' ∉ line) ∧
    (contents ≠ [] → linesOf contents ≠ []) ∧
    ('\n' ∉ contents → contents ≠ [] → linesOf contents = [contents]) ∧
    (contents ≠ [] → contents.getLast? ≠ some '\n' →
      contents.getLast? ≠ some '\r' →
      linesOf (contents ++ ['\n']) = linesOf contents) := by
  refine ⟨?_, ?_, ?_, ?_, ?_, ?_⟩
  · unfold search
    exact List.filter_eq_self.mpr fun l _ => strContains_nil l
  · rw [search_case_insensitive_eq_filter]
    exact List.filter_eq_self.mpr fun l _ => strContains_nil (toLowercase l)
  · intro line hl
    exact linesOf_no_newline hl
  · exact fun h => linesOf_ne_nil h
  · exact fun h1 h2 => linesOf_no_newline_eq h1 h2
  · exact fun h1 h2 h3 => linesOf_append_newline h1 h2 h3

/-- C8 witness: the empty query returns both lines of `"ab\ncd"`, the
lines carry no terminator, and a trailing newline adds no line. -/
theorem search_empty_query_witness :
    linesOf ("ab\ncd".toList ++ ['\n']) = linesOf "ab\ncd".toList ∧
    linesOf "ab\ncd".toList ≠ [] ∧
    '\n' ∉ ("ab".toList : Str) ∧
    search [] "ab\ncd".toList = linesOf "ab\ncd".toList :=
  ⟨(search_empty_query "ab\ncd".toList).2.2.2.2.2 (by decide) (by decide)
      (by decide),
   (search_empty_query "ab\ncd".toList).2.2.2.1 (by decide),
   (search_empty_query "ab\ncd".toList).2.2.1 "ab".toList (by decide),
   (search_empty_query "ab\ncd".toList).1⟩

/-- C4 counterexample: parsing with the bare token `-` at index 3 does
not fail — `Config::new` silently accepts it and succeeds, because the
inner option loop iterates zero times over the empty character tail. -/
theorem config_new_bare_dash_counterexample :
    Config.new true ["prog".toList, "a".toList, "b".toList, "-".toList]
      = .ok { query := "a".toList, filename := "b".toList,
              case_sensitive := true } := by
  decide

/-- C4 amended: an argument that is exactly `-` at index 3 or beyond is
silently accepted rather than rejected: the inner option loop iterates
zero times over its empty character tail, so the bare dash contributes no
option and leaves case sensitivity unchanged — parsing behaves exactly as
on the same argument list with the bare dash removed, whatever the other
trailing arguments are. -/
theorem config_new_bare_dash_skipped (env : Bool) (prog query filename : Str)
    (pre post : List Str) :
    Config.new env (prog :: query :: filename ::
        (pre ++ (['-'] : Str) :: post))
      = Config.new env (prog :: query :: filename :: (pre ++ post)) := by
  simp only [Config.new]
  rw [argsLoop_skip_dash]

/-- C5: on any non-empty argument list whose arguments at index 3 and
beyond are all non-empty, `Config::new` terminates normally with either a
configuration or an error string; neither panic site (the match on a
missing program name, the unwrap of a first character) is reachable. -/
theorem config_new_no_panic (env : Bool) (args : List Str)
    (hne : args ≠ []) (hopts : ∀ a ∈ args.drop 3, a ≠ []) :
    (∃ c, Config.new env args = .ok c) ∨
    (∃ m, Config.new env args = .err m) := by
  match args with
  | [] => exact absurd rfl hne
  | [p] => exact .inr ⟨argumentsErrMsg p, rfl⟩
  | [p, q] => exact .inr ⟨argumentsErrMsg p, rfl⟩
  | p :: q :: f :: opts =>
    have hopts' : ∀ a ∈ opts, a ≠ [] := by
      intro a ha
      exact hopts a (by simpa using ha)
    simp only [Config.new]
    rcases argsLoop_no_panic opts p env hopts' with ⟨b, hb⟩ | ⟨m, hm⟩
    · rw [hb]
      exact .inl ⟨_, rfl⟩
    · rw [hm]
      exact .inr ⟨m, rfl⟩

/-- C5 witness: a concrete well-formed invocation neither panics nor gets
stuck — here it parses successfully. -/
theorem config_new_no_panic_witness :
    (∃ c, Config.new true ["p".toList, "q".toList, "f".toList, "-i".toList]
        = .ok c) ∨
    (∃ m, Config.new true ["p".toList, "q".toList, "f".toList, "-i".toList]
        = .err m) :=
  config_new_no_panic true
    ["p".toList, "q".toList, "f".toList, "-i".toList] (by decide) (by decide)

/-- C6: with a program name present but fewer than 3 arguments in total,
`Config::new` fails with the insufficient-arguments error, whose message
follows the literal format
`<program>: <error text>\nUsage: <program> <query> <file> [-i]`; being a
pure parse, no file is accessed. -/
theorem config_new_insufficient_arguments (env : Bool) (prog : Str)
    (rest : List Str) (h : (prog :: rest).length < 3) :
    Config.new env (prog :: rest) = .err (specInsufficientMsg prog) := by
  match rest with
  | [] =>
    simp only [Config.new]
    rw [argumentsErrMsg_eq_spec]
  | [q] =>
    simp only [Config.new]
    rw [argumentsErrMsg_eq_spec]
  | q :: f :: more =>
    simp only [List.length_cons] at h
    omega

/-- C6 witness: a one-argument invocation produces exactly the formatted
insufficient-arguments message. -/
theorem config_new_insufficient_arguments_witness :
    Config.new true ["minigrep".toList]
      = .err (specInsufficientMsg "minigrep".toList) :=
  config_new_insufficient_arguments true "minigrep".toList [] (by decide)

/-- C9: whenever `Config::new` succeeds, the configuration is
case-sensitive exactly when the `CASE_INSENSITIVE` environment variable is
absent and no trailing argument (index 3 or beyond) carries the `i`
option; an `-i` flag forces case-insensitive mode regardless of the
environment variable. -/
theorem config_new_case_sensitive_iff (env : Bool) (args : List Str)
    (cfg : Config) (h : Config.new env args = .ok cfg) :
    cfg.case_sensitive = true ↔
      env = true ∧ ∀ a ∈ args.drop 3, 'i' ∉ a := by
  match args with
  | [] => exact absurd h (by simp [Config.new])
  | [p] => exact absurd h (by simp [Config.new])
  | [p, q] => exact absurd h (by simp [Config.new])
  | p :: q :: f :: opts =>
    simp only [Config.new] at h
    cases hloop : argsLoop p env opts with
    | done b =>
      rw [hloop] at h
      cases h
      simpa using argsLoop_done opts p env b hloop
    | stop r =>
      rw [hloop] at h
      exact absurd h (argsLoop_stop_not_ok opts p env r hloop cfg)

/-- C9 witness: with the environment variable absent and an `-i` flag,
the parse succeeds and the characterization yields a case-insensitive
configuration. -/
theorem config_new_case_sensitive_iff_witness :
    (Config.mk "q".toList "f".toList false).case_sensitive = true ↔
      (true = true ∧
        ∀ a ∈ (["p".toList, "q".toList, "f".toList, "-i".toList] :
          List Str).drop 3, 'i' ∉ a) :=
  config_new_case_sensitive_iff true
    ["p".toList, "q".toList, "f".toList, "-i".toList]
    (Config.mk "q".toList "f".toList false) (by decide)

/-- C10: when reading the configured file fails, `run` returns the
underlying I/O error unchanged — it is propagated, not interpreted — and
the result carries no standard-output lines. -/
theorem run_propagates_io_error (read_to_string : Str → Except Str Str)
    (config : Config) (e : Str)
    (h : read_to_string config.filename = .error e) :
    run read_to_string config = .error e ∧
    ∀ out : List Str, run read_to_string config ≠ .ok out := by
  refine ⟨?_, ?_⟩
  · rw [run, h]
  · intro out
    rw [run, h]
    exact fun hh => Except.noConfusion hh

/-- C10 witness: a reader that fails with a not-found error makes `run`
fail with exactly that error and print nothing. -/
theorem run_propagates_io_error_witness :
    run (fun _ => .error "No such file or directory (os error 2)".toList)
        (Config.mk "word".toList "/nonexistent/file".toList true)
      = .error "No such file or directory (os error 2)".toList ∧
    ∀ out : List Str,
      run (fun _ => .error "No such file or directory (os error 2)".toList)
          (Config.mk "word".toList "/nonexistent/file".toList true)
        ≠ .ok out :=
  run_propagates_io_error
    (fun _ => .error "No such file or directory (os error 2)".toList)
    (Config.mk "word".toList "/nonexistent/file".toList true)
    "No such file or directory (os error 2)".toList rfl

/-- C1: the executable's entry point does not perform the
parse-read-search-print pipeline.  On the invocation
`minigrep duct poem.txt` it prints two banner lines and never the file's
matching lines: with the book's sample file contents, the library search
would print `safe, fast, productive.`, but `main` prints
`Searching for duct` and `In file poem.txt` without reading any file. -/
theorem main_does_not_run_pipeline :
    mainStdout ["minigrep".toList, "duct".toList, "poem.txt".toList]
      = ["Searching for duct".toList, "In file poem.txt".toList] ∧
    search "duct".toList
        "Rust:\nsafe, fast, productive.\nPick three.\nDuct tape.".toList
      = ["safe, fast, productive.".toList] ∧
    mainStdout ["minigrep".toList, "duct".toList, "poem.txt".toList]
      ≠ search "duct".toList
          "Rust:\nsafe, fast, productive.\nPick three.\nDuct tape.".toList := by
  refine ⟨by decide, by decide, by decide⟩
